import Mathlib

/-!
Verification of the caching/invalidation layer of the `github-manager`
repository against its natural-language specification.

The repository's `ghm/runner.py` and `ghm/utils.py` are embedded from
source.  The cache module (`ghm/cache.py`, providing the `Cache` class and
the `cache` / `invalidate` decorators) is imported by `runner.py` but its
source is not available; those components are modelled from the
specification, as marked on each definition.
-/

set_option autoImplicit false

/-- Modelled from the spec: the constrained structured-data type of cached
values — any value representable as nested maps/sequences/primitives
(JSON object/array/string/number/boolean/null).  The number case is
modelled by `Int`. -/
inductive JValue where
  | null : JValue
  | bool : Bool → JValue
  | num : Int → JValue
  | str : String → JValue
  | arr : List JValue → JValue
  | obj : List (String × JValue) → JValue

/-- Modelled from the spec: the in-memory mapping of the CacheStore from
key to value, as an association list with unique keys by construction of
`CacheStore.set`. -/
abbrev CacheStore := List (String × JValue)

/-- Modelled from the spec: `get(key) -> value | miss`, a pure lookup. -/
def CacheStore.get (s : CacheStore) (k : String) : Option JValue :=
  match s with
  | [] => none
  | (k₁, v) :: rest => if k₁ = k then some v else CacheStore.get rest k

/-- Modelled from the spec: `set(key, value)` inserts or overwrites. -/
def CacheStore.set (s : CacheStore) (k : String) (v : JValue) : CacheStore :=
  match s with
  | [] => [(k, v)]
  | (k₁, v₁) :: rest =>
      if k₁ = k then (k, v) :: rest else (k₁, v₁) :: CacheStore.set rest k v

/-- Modelled from the spec: `purgeAll()` clears every entry. -/
def CacheStore.purgeAll (_ : CacheStore) : CacheStore := []

/-- Modelled from the spec: the observable states of the persisted cache
file — absent (first run), present but unparsable, or a well-formed JSON
object mapping cache keys to values.  The file is modelled by its parsed
JSON content. -/
inductive FileState where
  | absent : FileState
  | malformed : FileState
  | content : List (String × JValue) → FileState

/-- Modelled from the spec: `Cache.load()` (ghm/cache.py is not in the
available sources).  Reads the persisted file; if absent, initializes an
empty store (no error); if malformed, initializes an empty store and
raises only a non-fatal warning, returned here as a `Bool` flag. -/
def Cache.load (fs : FileState) : CacheStore × Bool :=
  match fs with
  | .absent => ([], false)
  | .malformed => ([], true)
  | .content m => (m, false)

/-- Modelled from the spec: `Cache.store()` (ghm/cache.py is not in the
available sources).  Serializes the full map to the persisted file. -/
def Cache.store (s : CacheStore) : FileState := .content s

/-- Modelled from the spec: the read-through decorator `cache`
(ghm/cache.py is not in the available sources).  Given the derived key,
the underlying operation `f` and the current store: on hit return the
stored value without invoking `f`; on miss invoke `f`, store the result
only on success, and propagate failure unchanged.  The third component
counts how many times `f` was invoked during the call. -/
def readThrough {E : Type} (key : String) (f : Unit → Except E JValue)
    (s : CacheStore) : Except E JValue × CacheStore × Nat :=
  match s.get key with
  | some v => (Except.ok v, s, 0)
  | none =>
      match f () with
      | Except.ok v => (Except.ok v, s.set key v, 1)
      | Except.error e => (Except.error e, s, 1)

/-- Modelled from the spec: the invalidation decorator `invalidate`
(ghm/cache.py is not in the available sources).  Always invoke the
underlying operation `f` first; on success purge the entire store; on
failure leave the store untouched and propagate the failure.  The third
component counts how many times `f` was invoked during the call. -/
def invalidateWrap {E α : Type} (f : Unit → Except E α)
    (s : CacheStore) : Except E α × CacheStore × Nat :=
  match f () with
  | Except.ok v => (Except.ok v, s.purgeAll, 1)
  | Except.error e => (Except.error e, s, 1)

/-- Embeds an undecorated method of `GhRunner` (src/ghm/runner.py): the
body runs on every call and the cache store is neither consulted nor
modified. -/
def plainCall {E α : Type} (f : Unit → Except E α)
    (s : CacheStore) : Except E α × CacheStore × Nat :=
  (f (), s, 1)

/-- Modelled from the spec: the constrained set of primitive argument
types accepted by KeyBuilder — string, integer, boolean, null. -/
inductive ArgValue where
  | str : String → ArgValue
  | int : Int → ArgValue
  | bool : Bool → ArgValue
  | null : ArgValue
deriving DecidableEq

/-- Injective rendering of a natural number as a character sequence. -/
def natChars (n : Nat) : List Char := List.replicate n '1'

/-- Serialization of an integer: a sign tag followed by binary digits. -/
def encInt : Int → List Char
  | .ofNat m => 'p' :: natChars m
  | .negSucc m => 'm' :: natChars m

/-- Serialization of one primitive argument value, tagged by kind. -/
def encArg : ArgValue → List Char
  | .str s => 's' :: s.data
  | .int n => 'i' :: encInt n
  | .bool b => 'b' :: (if b then ['1'] else ['0'])
  | .null => ['n']

/-- Escaping of one character so that the separator never occurs in
escaped text. -/
def escChar (c : Char) : List Char :=
  if c = '!' then ['!', 'e'] else if c = '~' then ['!', 't'] else [c]

/-- Escaping of a character sequence, character by character. -/
def escape : List Char → List Char
  | [] => []
  | c :: rest => escChar c ++ escape rest

/-- Serialization of a list of fields: each field is escaped and closed
by the separator, making the encoding prefix-free. -/
def encList {α : Type} (f : α → List Char) : List α → List Char
  | [] => []
  | x :: xs => escape (f x) ++ '~' :: encList f xs

/-- Serialization of one named argument as a name/value pair. -/
def encPair : String × ArgValue → List Char
  | (n, v) => escape n.data ++ '~' :: encArg v

/-- Serialization of one named argument, packed as a string so named
arguments can be ordered deterministically. -/
def encPairStr (p : String × ArgValue) : String := String.mk (encPair p)

/-- Modelled from the spec: canonicalization of named arguments — they
are ordered deterministically (sorted) before being folded into the
key, so equivalent calls made with arguments supplied in different
orders produce identical keys. -/
def canonNamed (named : List (String × ArgValue)) : List String :=
  List.insertionSort (fun a b : String => a ≤ b) (named.map encPairStr)

/-- Modelled from the spec: `KeyBuilder.build(operationName,
positionalArgs, namedArgs) -> key` (ghm/cache.py is not in the available
sources).  A single string combining operation identity and the
serialized, canonicalized arguments, suitable as a map key and a JSON
object field name. -/
def KeyBuilder.build (op : String) (pos : List ArgValue)
    (named : List (String × ArgValue)) : String :=
  String.mk (escape op.data ++ ('~' :: (escape (encList encArg pos) ++
    ('~' :: encList String.data (canonNamed named)))))

/-- Which wrapper, if any, decorates a `GhRunner` method. -/
inductive Wrapper where
  | cached : Wrapper
  | invalidated : Wrapper
  | plain : Wrapper
deriving DecidableEq

/-- From src/ghm/runner.py: the decorator applied to each `GhRunner`
method (`@cache`, `@invalidate`, or none). -/
def wrapperOf (name : String) : Wrapper :=
  if name = "pr_get" then .cached
  else if name = "pr_list" then .cached
  else if name = "pr_approve" then .invalidated
  else if name = "pr_open" then .cached
  else if name = "pr_merge" then .invalidated
  else if name = "pr_update_branch" then .invalidated
  else if name = "_fetch_action_job_by_id" then .cached
  else if name = "action_run_rerun" then .invalidated
  else if name = "workflow_list" then .cached
  else if name = "fetch_draft_release" then .cached
  else if name = "release_publish" then .invalidated
  else .plain

/-- From src/ghm/runner.py, `pr_open`: the argument list of the external
command it runs; the trailing `-w` flag makes `gh pr view` open the pull
request in a web browser, which is the method's documented purpose
("Open the PR in a browser"). -/
def pr_open_cmd (repo : String) (number : Nat) : List String :=
  ["gh", "pr", "view", "-R", repo, toString number, "-w"]

/-- From src/ghm/runner.py, `workflow_run`: the argument list of the
external command it runs (`gh workflow run`). -/
def workflow_run_cmd (repo name : String) : List String :=
  ["gh", "workflow", "run", "-R", repo, name]

/-- From src/ghm/runner.py, `fetch_latest_release`: the argument list of
the external command it runs (`gh release list`). -/
def fetch_latest_release_cmd (repo : String) : List String :=
  ["gh", "release", "list", "-R", repo, "-L", "2"]

/-- Observable lifecycle events of a `GhRunner` session. -/
inductive Ev where
  | load : Ev
  | store : Ev
  | exec : String → Ev
deriving DecidableEq

/-- The mechanism that triggers the final `store()` call. -/
inductive StoreTrigger where
  | finalizer : StoreTrigger
  | scopedExit : StoreTrigger
deriving DecidableEq

/-- From src/ghm/runner.py: `GhRunner.__init__` creates the `Cache` and
immediately calls `load()`, before any wrapped method can run. -/
def GhRunner.initTrace : List Ev := [Ev.load]

/-- From src/ghm/runner.py: `GhRunner.__del__` calls
`self._cache.store()`; `__del__` is the Python object finalizer, so the
final persist is triggered by object finalization. -/
def GhRunner.storeTrigger : StoreTrigger := .finalizer

/-- The event trace of one `GhRunner` lifetime in which the finalizer
runs: construction (which loads the cache), the method calls made on the
runner, then finalization (which stores the cache). -/
def GhRunner.sessionTrace (ops : List String) : List Ev :=
  GhRunner.initTrace ++ ops.map Ev.exec ++ [Ev.store]

/-- Modelled from the spec: the disk around the persisted cache file —
the file itself and the temporary location `store()` writes to. -/
structure DiskState where
  main : FileState
  temp : Option (List (String × JValue))

/-- Modelled from the spec: first step of atomic `store()` — write the
serialized map to a temporary location. -/
def storeWriteTemp (m : CacheStore) (d : DiskState) : DiskState :=
  { d with temp := some m }

/-- Modelled from the spec: second step of atomic `store()` — rename the
temporary file into place. -/
def storeRename (d : DiskState) : DiskState :=
  match d.temp with
  | some m => { main := .content m, temp := none }
  | none => d

/-- Modelled from the spec: `store()` as the two-step atomic write. -/
def storeAtomic (m : CacheStore) (d : DiskState) : DiskState :=
  storeRename (storeWriteTemp m d)

/-- The disk state observed when the process crashes after the first
`n` steps of `storeAtomic` have completed. -/
def storeCrashAt (m : CacheStore) (d : DiskState) : Nat → DiskState
  | 0 => d
  | 1 => storeWriteTemp m d
  | _ + 2 => storeAtomic m d

/-- The cache key derived for the call `pr_open("acme/widgets", 42)`. -/
def pr_open_key : String :=
  KeyBuilder.build "pr_open" [ArgValue.str "acme/widgets", ArgValue.int 42] []

/-- From src/ghm/runner.py, the body of `pr_open`: it runs the external
command (whose `-w` flag opens the browser) and, having no return
statement, returns None (null). -/
def pr_open_base : Unit → Except String JValue := fun _ => Except.ok JValue.null


theorem natChars_inj {a b : Nat} (h : natChars a = natChars b) : a = b := by
  have hl := congrArg List.length h
  simpa [natChars] using hl

theorem encInt_inj {a b : Int} (h : encInt a = encInt b) : a = b := by
  cases a with
  | ofNat m =>
    cases b with
    | ofNat k =>
      simp only [encInt, List.cons.injEq] at h
      exact congrArg Int.ofNat (natChars_inj h.2)
    | negSucc k => simp [encInt] at h
  | negSucc m =>
    cases b with
    | ofNat k => simp [encInt] at h
    | negSucc k =>
      simp only [encInt, List.cons.injEq] at h
      exact congrArg Int.negSucc (natChars_inj h.2)

theorem string_data_inj {a b : String} (h : a.data = b.data) : a = b := by
  cases a
  cases b
  exact congrArg String.mk h

theorem encArg_inj {a b : ArgValue} (h : encArg a = encArg b) : a = b := by
  cases a <;> cases b <;> simp only [encArg, List.cons.injEq] at h
  case str.str s1 s2 => exact congrArg ArgValue.str (string_data_inj h.2)
  case int.int n1 n2 => exact congrArg ArgValue.int (encInt_inj h.2)
  case bool.bool b1 b2 =>
    cases b1 <;> cases b2
    · rfl
    · exact absurd h.2 (by decide)
    · exact absurd h.2 (by decide)
    · rfl
  case null.null => rfl
  all_goals exact absurd h.1 (by decide)

theorem sep_not_mem_escChar (c : Char) : '~' ∉ escChar c := by
  unfold escChar
  by_cases h1 : c = '!'
  · rw [if_pos h1]; decide
  · rw [if_neg h1]
    by_cases h2 : c = '~'
    · rw [if_pos h2]; decide
    · rw [if_neg h2]
      intro hm
      rcases List.mem_singleton.mp hm with rfl
      exact h2 rfl

theorem sep_not_mem_escape : ∀ l : List Char, '~' ∉ escape l := by
  intro l
  induction l with
  | nil => simp [escape]
  | cons c rest ih =>
    simp only [escape, List.mem_append]
    rintro (hm | hm)
    · exact sep_not_mem_escChar c hm
    · exact ih hm

theorem escChar_cases (c : Char) :
    (c = '!' ∧ escChar c = ['!', 'e']) ∨ (c = '~' ∧ escChar c = ['!', 't']) ∨
    (c ≠ '!' ∧ c ≠ '~' ∧ escChar c = [c]) := by
  by_cases h1 : c = '!'
  · exact Or.inl ⟨h1, by simp [escChar, h1]⟩
  · by_cases h2 : c = '~'
    · exact Or.inr (Or.inl ⟨h2, by simp [escChar, h1, h2]⟩)
    · exact Or.inr (Or.inr ⟨h1, h2, by simp [escChar, h1, h2]⟩)

theorem escape_inj : ∀ l1 l2 : List Char, escape l1 = escape l2 → l1 = l2 := by
  intro l1
  induction l1 with
  | nil =>
    intro l2 h
    cases l2 with
    | nil => rfl
    | cons c rest =>
      exfalso
      simp only [escape] at h
      rcases escChar_cases c with ⟨_, he⟩ | ⟨_, he⟩ | ⟨_, _, he⟩ <;> rw [he] at h <;>
        simp at h
  | cons c1 r1 ih =>
    intro l2 h
    cases l2 with
    | nil =>
      exfalso
      simp only [escape] at h
      rcases escChar_cases c1 with ⟨_, he⟩ | ⟨_, he⟩ | ⟨_, _, he⟩ <;> rw [he] at h <;>
        simp at h
    | cons c2 r2 =>
      simp only [escape] at h
      rcases escChar_cases c1 with ⟨rfl, he1⟩ | ⟨rfl, he1⟩ | ⟨hn1, hm1, he1⟩ <;>
        rcases escChar_cases c2 with ⟨rfl, he2⟩ | ⟨rfl, he2⟩ | ⟨hn2, hm2, he2⟩ <;>
        simp only [he1, he2] at h
      · simp at h
        rw [ih r2 h]
      · simp at h
      · simp at h
        exact absurd h.1.symm hn2
      · simp at h
      · simp at h
        rw [ih r2 h]
      · simp at h
        exact absurd h.1.symm hn2
      · simp at h
        exact absurd h.1 hn1
      · simp at h
        exact absurd h.1 hn1
      · simp at h
        rw [h.1, ih r2 h.2]

theorem sep_split : ∀ u v x y : List Char, '~' ∉ u → '~' ∉ v →
    u ++ '~' :: x = v ++ '~' :: y → u = v ∧ x = y := by
  intro u
  induction u with
  | nil =>
    intro v x y _ hv h
    cases v with
    | nil => simpa using h
    | cons d v =>
      simp only [List.nil_append, List.cons_append, List.cons.injEq] at h
      exact absurd (h.1 ▸ List.mem_cons_self d v) hv
  | cons c u ih =>
    intro v x y hu hv h
    cases v with
    | nil =>
      simp only [List.nil_append, List.cons_append, List.cons.injEq] at h
      exact absurd (h.1 ▸ List.mem_cons_self c u) hu
    | cons d v =>
      simp only [List.cons_append, List.cons.injEq] at h
      obtain ⟨rfl, h2⟩ := h
      have hr := ih v x y (fun hm => hu (List.mem_cons_of_mem _ hm))
        (fun hm => hv (List.mem_cons_of_mem _ hm)) h2
      exact ⟨by rw [hr.1], hr.2⟩

theorem encList_inj {α : Type} (f : α → List Char)
    (hf : ∀ a b : α, f a = f b → a = b) :
    ∀ l1 l2 : List α, encList f l1 = encList f l2 → l1 = l2 := by
  intro l1
  induction l1 with
  | nil =>
    intro l2 h
    cases l2 with
    | nil => rfl
    | cons x xs => simp [encList] at h
  | cons x xs ih =>
    intro l2 h
    cases l2 with
    | nil => simp [encList] at h
    | cons y ys =>
      simp only [encList] at h
      have hs := sep_split (escape (f x)) (escape (f y)) (encList f xs)
        (encList f ys) (sep_not_mem_escape _) (sep_not_mem_escape _) h
      rw [hf x y (escape_inj _ _ hs.1), ih ys hs.2]

theorem encPair_inj {p q : String × ArgValue} (h : encPair p = encPair q) :
    p = q := by
  obtain ⟨n1, v1⟩ := p
  obtain ⟨n2, v2⟩ := q
  simp only [encPair] at h
  have hs := sep_split (escape n1.data) (escape n2.data) (encArg v1) (encArg v2)
    (sep_not_mem_escape _) (sep_not_mem_escape _) h
  rw [string_data_inj (escape_inj _ _ hs.1), encArg_inj hs.2]

theorem encPairStr_inj {p q : String × ArgValue}
    (h : encPairStr p = encPairStr q) : p = q := by
  apply encPair_inj
  simpa [encPairStr] using congrArg String.data h

theorem canonNamed_of_perm {n1 n2 : List (String × ArgValue)}
    (h : List.Perm n1 n2) : canonNamed n1 = canonNamed n2 := by
  apply List.eq_of_perm_of_sorted (r := fun a b : String => a ≤ b)
  · have p1 := List.perm_insertionSort (fun a b : String => a ≤ b)
      (n1.map encPairStr)
    have p2 := List.perm_insertionSort (fun a b : String => a ≤ b)
      (n2.map encPairStr)
    exact (p1.trans (h.map encPairStr)).trans p2.symm
  · exact List.sorted_insertionSort _ _
  · exact List.sorted_insertionSort _ _

theorem canonNamed_eq_iff {n1 n2 : List (String × ArgValue)} :
    canonNamed n1 = canonNamed n2 ↔ List.Perm n1 n2 := by
  constructor
  · intro h
    unfold canonNamed at h
    have p1 := List.perm_insertionSort (fun a b : String => a ≤ b)
      (n1.map encPairStr)
    have p2 := List.perm_insertionSort (fun a b : String => a ≤ b)
      (n2.map encPairStr)
    rw [← h] at p2
    have hp := p1.symm.trans p2
    have hmq : (Multiset.map encPairStr ↑n1) = Multiset.map encPairStr ↑n2 := by
      rw [Multiset.map_coe, Multiset.map_coe]
      exact Multiset.coe_eq_coe.mpr hp
    have := Multiset.map_injective (fun a b hab => encPairStr_inj hab) hmq
    exact Multiset.coe_eq_coe.mp this
  · exact canonNamed_of_perm

theorem build_components {op1 op2 : String} {pos1 pos2 : List ArgValue}
    {n1 n2 : List (String × ArgValue)}
    (h : KeyBuilder.build op1 pos1 n1 = KeyBuilder.build op2 pos2 n2) :
    op1 = op2 ∧ pos1 = pos2 ∧ canonNamed n1 = canonNamed n2 := by
  unfold KeyBuilder.build at h
  replace h := congrArg String.data h
  dsimp only at h
  have h1 := sep_split _ _ _ _ (sep_not_mem_escape _) (sep_not_mem_escape _) h
  obtain ⟨ha, hrest⟩ := h1
  have h2 := sep_split _ _ _ _ (sep_not_mem_escape _) (sep_not_mem_escape _) hrest
  obtain ⟨hb, hc⟩ := h2
  refine ⟨string_data_inj (escape_inj _ _ ha), ?_, ?_⟩
  · exact encList_inj encArg (fun _ _ hab => encArg_inj hab) _ _
      (escape_inj _ _ hb)
  · exact encList_inj String.data (fun _ _ hab => string_data_inj hab) _ _ hc

theorem CacheStore.get_set_self (s : CacheStore) (k : String) (v : JValue) :
    (s.set k v).get k = some v := by
  induction s with
  | nil => simp [CacheStore.set, CacheStore.get]
  | cons p rest ih =>
    obtain ⟨k1, v1⟩ := p
    by_cases hk : k1 = k
    · simp [CacheStore.set, hk, CacheStore.get]
    · simp [CacheStore.set, hk, CacheStore.get, ih]

theorem readThrough_hit {E : Type} {s : CacheStore} {key : String}
    {f : Unit → Except E JValue} {v : JValue} (h : s.get key = some v) :
    readThrough key f s = (Except.ok v, s, 0) := by
  unfold readThrough
  rw [h]

theorem readThrough_miss_ok {E : Type} {s : CacheStore} {key : String}
    {f : Unit → Except E JValue} {v : JValue} (h : s.get key = none)
    (hv : f () = Except.ok v) :
    readThrough key f s = (Except.ok v, s.set key v, 1) := by
  unfold readThrough
  rw [h, hv]

theorem readThrough_miss_err {E : Type} {s : CacheStore} {key : String}
    {f : Unit → Except E JValue} {e : E} (h : s.get key = none)
    (he : f () = Except.error e) :
    readThrough key f s = (Except.error e, s, 1) := by
  unfold readThrough
  rw [h, he]

theorem readThrough_ok_then_hit {E : Type} (s : CacheStore) (key : String)
    (f : Unit → Except E JValue) {w : JValue} {s₁ : CacheStore} {n : Nat}
    (hcall : readThrough key f s = (Except.ok w, s₁, n)) :
    n ≤ 1 ∧ readThrough key f s₁ = (Except.ok w, s₁, 0) := by
  cases hget : s.get key with
  | some v =>
    rw [readThrough_hit hget] at hcall
    simp only [Prod.mk.injEq, Except.ok.injEq] at hcall
    obtain ⟨rfl, rfl, rfl⟩ := hcall
    exact ⟨by omega, readThrough_hit hget⟩
  | none =>
    cases hf : f () with
    | ok v =>
      rw [readThrough_miss_ok hget hf] at hcall
      simp only [Prod.mk.injEq, Except.ok.injEq] at hcall
      obtain ⟨rfl, rfl, rfl⟩ := hcall
      exact ⟨by omega, readThrough_hit (CacheStore.get_set_self s key v)⟩
    | error e =>
      rw [readThrough_miss_err hget hf] at hcall
      simp at hcall

/-- C1: for every read-through-wrapped operation and every argument tuple
whose key is present in the CacheStore, the wrapper returns the stored
value and does not invoke the underlying operation (zero invocations);
and whenever a call returns successfully, a second consecutive call with
identical arguments performs zero further invocations — so the two calls
together invoke the underlying operation at most once — and the second
call's return value equals the first's. -/
theorem readThrough_hit_idempotent {E : Type} (s : CacheStore) (key : String)
    (f : Unit → Except E JValue) (v : JValue) (h : s.get key = some v) :
    readThrough key f s = (Except.ok v, s, 0) ∧
    (∀ (w : JValue) (s₁ : CacheStore) (n : Nat),
      readThrough key f s = (Except.ok w, s₁, n) →
      n ≤ 1 ∧ readThrough key f s₁ = (Except.ok w, s₁, 0)) :=
  ⟨readThrough_hit h, fun _ _ _ hcall => readThrough_ok_then_hit s key f hcall⟩

theorem readThrough_hit_idempotent_witness :
    CacheStore.get [("k", JValue.num 1)] "k" = some (JValue.num 1) ∧
    readThrough "k" (fun _ => (Except.error "boom" : Except String JValue))
      [("k", JValue.num 1)] = (Except.ok (JValue.num 1), [("k", JValue.num 1)], 0) :=
  ⟨rfl, (readThrough_hit_idempotent [("k", JValue.num 1)] "k"
    (fun _ => Except.error "boom") (JValue.num 1) rfl).1⟩

/-- C2: every call of an invalidation-wrapped operation invokes the
underlying operation exactly once, even on an empty store; on success the
entire CacheStore is purged to empty regardless of its contents; on
failure the store is left exactly as it was and the failure propagates
with its original kind. -/
theorem invalidate_contract {E α : Type} (f : Unit → Except E α)
    (s : CacheStore) :
    (invalidateWrap f s).2.2 = 1 ∧
    (∀ v : α, f () = Except.ok v → invalidateWrap f s = (Except.ok v, [], 1)) ∧
    (∀ e : E, f () = Except.error e →
      invalidateWrap f s = (Except.error e, s, 1)) := by
  refine ⟨?_, ?_, ?_⟩
  · unfold invalidateWrap
    cases f () <;> rfl
  · intro v hv
    unfold invalidateWrap
    rw [hv]
    rfl
  · intro e he
    unfold invalidateWrap
    rw [he]

theorem invalidate_contract_witness :
    invalidateWrap (fun _ => (Except.ok 42 : Except String Nat))
      [("k", JValue.null)] = (Except.ok 42, [], 1) :=
  (invalidate_contract (fun _ => Except.ok 42) [("k", JValue.null)]).2.1 42 rfl

/-- C3: for a read-through-wrapped operation whose key is not in the
store, the wrapper invokes the underlying operation exactly once; on
success the result is stored under the key and returned; on failure the
failure propagates unchanged with its original kind, the store is left
exactly as it was, and a subsequent call with the same arguments invokes
the underlying operation again (one further invocation). -/
theorem readThrough_miss_contract {E : Type} (s : CacheStore) (key : String)
    (f : Unit → Except E JValue) (h : s.get key = none) :
    (readThrough key f s).2.2 = 1 ∧
    (∀ v : JValue, f () = Except.ok v →
      readThrough key f s = (Except.ok v, s.set key v, 1)) ∧
    (∀ e : E, f () = Except.error e →
      readThrough key f s = (Except.error e, s, 1) ∧
      (readThrough key f ((readThrough key f s).2.1)).2.2 = 1) := by
  refine ⟨?_, fun v hv => readThrough_miss_ok h hv, fun e he => ?_⟩
  · cases hf : f () with
    | ok v => rw [readThrough_miss_ok h hf]
    | error e => rw [readThrough_miss_err h hf]
  · have h1 := readThrough_miss_err (f := f) h he
    refine ⟨h1, ?_⟩
    rw [h1]
    show (readThrough key f s).2.2 = 1
    rw [h1]

theorem readThrough_miss_contract_witness :
    readThrough "k" (fun _ => (Except.error "boom" : Except String JValue))
      ([] : CacheStore) = (Except.error "boom", [], 1) :=
  ((readThrough_miss_contract [] "k" (fun _ => Except.error "boom")
    rfl).2.2 "boom" rfl).1

/-- C4: KeyBuilder.build is a deterministic function of the operation
identity and the canonicalized arguments: equal canonicalized arguments
— in particular named arguments supplied in different orders — yield
equal keys; and it is injective for a fixed operation: equal keys force
equal positional arguments and equal canonicalized named arguments
(equivalently, the named-argument multisets agree). -/
theorem keyBuilder_build_canonical (op : String) (pos1 pos2 : List ArgValue)
    (n1 n2 : List (String × ArgValue)) :
    (pos1 = pos2 → canonNamed n1 = canonNamed n2 →
      KeyBuilder.build op pos1 n1 = KeyBuilder.build op pos2 n2) ∧
    (List.Perm n1 n2 →
      KeyBuilder.build op pos1 n1 = KeyBuilder.build op pos1 n2) ∧
    (KeyBuilder.build op pos1 n1 = KeyBuilder.build op pos2 n2 →
      pos1 = pos2 ∧ canonNamed n1 = canonNamed n2 ∧ List.Perm n1 n2) := by
  refine ⟨?_, ?_, ?_⟩
  · intro hp hc
    unfold KeyBuilder.build
    rw [hp, hc]
  · intro hperm
    unfold KeyBuilder.build
    rw [canonNamed_of_perm hperm]
  · intro h
    have hb := build_components h
    exact ⟨hb.2.1, hb.2.2, canonNamed_eq_iff.mp hb.2.2⟩

theorem keyBuilder_build_canonical_witness :
    KeyBuilder.build "pr_list" [ArgValue.str "acme/widgets"]
      [("merge_state", ArgValue.str "CLEAN"), ("filter", ArgValue.null)] =
    KeyBuilder.build "pr_list" [ArgValue.str "acme/widgets"]
      [("filter", ArgValue.null), ("merge_state", ArgValue.str "CLEAN")] :=
  (keyBuilder_build_canonical "pr_list" [ArgValue.str "acme/widgets"]
    [ArgValue.str "acme/widgets"]
    [("merge_state", ArgValue.str "CLEAN"), ("filter", ArgValue.null)]
    [("filter", ArgValue.null), ("merge_state", ArgValue.str "CLEAN")]).2.1
    (by decide)

/-- C5: `store()` followed by a fresh `load()` yields a map equal — both
as a whole and key by key, value by value — to the one before `store()`,
with no warning raised. -/
theorem cache_store_load_roundtrip (m : CacheStore) :
    Cache.load (Cache.store m) = (m, false) ∧
    ∀ k : String, CacheStore.get (Cache.load (Cache.store m)).1 k =
      CacheStore.get m k :=
  ⟨rfl, fun _ => rfl⟩

/-- C6: `load()` never fails fatally: an absent file initializes an empty
store with no warning, a malformed file initializes an empty store with
only a non-fatal warning, and the warning is raised in no other case. -/
theorem cache_load_never_fatal (fs : FileState) :
    Cache.load FileState.absent = ([], false) ∧
    Cache.load FileState.malformed = ([], true) ∧
    ((Cache.load fs).2 = true → fs = FileState.malformed) := by
  refine ⟨rfl, rfl, ?_⟩
  cases fs with
  | absent => intro h; simp [Cache.load] at h
  | malformed => intro _; rfl
  | content m => intro h; simp [Cache.load] at h

theorem cache_load_never_fatal_witness :
    (Cache.load FileState.malformed).2 = true ∧
    FileState.malformed = FileState.malformed :=
  ⟨rfl, (cache_load_never_fatal FileState.malformed).2.2 rfl⟩

/-- C7 counterexample: in src/ghm/runner.py the final `store()` is issued
from `GhRunner.__del__`, the Python object finalizer, so the persist IS
tied to non-deterministic object finalization — contradicting the
claim's requirement that it not be. -/
theorem ghRunner_store_tied_to_finalizer :
    GhRunner.storeTrigger = StoreTrigger.finalizer := rfl

/-- C7 (amended): per GhRunner instance, load() runs exactly once, as the
first event, before any wrapped operation; and in any session in which
the finalizer runs, store() runs exactly once, as the last event — but it
is triggered by the object finalizer (`__del__`), not by a scoped-exit
guarantee covering every abnormal exit path. -/
theorem ghRunner_lifecycle (ops : List String) :
    (GhRunner.sessionTrace ops).head? = some Ev.load ∧
    (GhRunner.sessionTrace ops).count Ev.load = 1 ∧
    (GhRunner.sessionTrace ops).getLast? = some Ev.store ∧
    (GhRunner.sessionTrace ops).count Ev.store = 1 ∧
    GhRunner.storeTrigger = StoreTrigger.finalizer := by
  have hload : List.count Ev.load (ops.map Ev.exec) = 0 := by
    rw [List.count_eq_zero]
    intro hm
    obtain ⟨a, _, ha⟩ := List.mem_map.mp hm
    exact Ev.noConfusion ha
  have hstore : List.count Ev.store (ops.map Ev.exec) = 0 := by
    rw [List.count_eq_zero]
    intro hm
    obtain ⟨a, _, ha⟩ := List.mem_map.mp hm
    exact Ev.noConfusion ha
  unfold GhRunner.sessionTrace GhRunner.initTrace
  refine ⟨rfl, ?_, ?_, ?_, rfl⟩
  · rw [List.count_append, List.count_append, hload]
    decide
  · exact List.getLast?_concat _
  · rw [List.count_append, List.count_append, hstore]
    decide

/-- C8 fails on the code (code bug): `pr_open` is wrapped by the
read-through decorator although its documented purpose ("Open the PR in
a browser") is a side effect — its command carries the `-w` flag that
opens the browser — and it returns no value.  After a first call caches
the null result, a second identical call performs zero invocations of
the underlying command, so the required side effect is skipped. -/
theorem pr_open_cached_side_effect_skipped :
    wrapperOf "pr_open" = Wrapper.cached ∧
    "-w" ∈ pr_open_cmd "acme/widgets" 42 ∧
    (readThrough pr_open_key pr_open_base
      ((readThrough pr_open_key pr_open_base []).2.1)).2.2 = 0 := by
  refine ⟨rfl, by decide, ?_⟩
  have h1 : readThrough pr_open_key pr_open_base [] =
      (Except.ok JValue.null, CacheStore.set [] pr_open_key JValue.null, 1) :=
    readThrough_miss_ok rfl rfl
  rw [h1]
  show (readThrough pr_open_key pr_open_base
    (CacheStore.set [] pr_open_key JValue.null)).2.2 = 0
  rw [readThrough_hit (CacheStore.get_set_self [] pr_open_key JValue.null)]

/-- C9: `store()` writes the serialized map to a temporary location and
renames it into place, so after a crash at any point during `store()` the
persisted file holds either the previous contents or the complete new
contents, never a corrupted intermediate; and a completed `store()`
leaves the new contents in place. -/
theorem store_atomic_crash_safe (m : CacheStore) (d : DiskState) :
    (storeAtomic m d).main = FileState.content m ∧
    ∀ n : Nat, (storeCrashAt m d n).main = d.main ∨
      (storeCrashAt m d n).main = FileState.content m := by
  refine ⟨rfl, ?_⟩
  intro n
  match n with
  | 0 => exact Or.inl rfl
  | 1 => exact Or.inl rfl
  | _ + 2 => exact Or.inr rfl

/-- C10: `workflow_run` and `fetch_latest_release` carry neither
decorator; an undecorated method executes its command on every call,
exactly once, never serves from the cache, and leaves the CacheStore
completely unchanged — in particular no purge occurs even when the call
succeeds and mutates external state. -/
theorem unwrapped_ops_no_cache_effect :
    wrapperOf "workflow_run" = Wrapper.plain ∧
    wrapperOf "fetch_latest_release" = Wrapper.plain ∧
    ∀ (E α : Type) (f : Unit → Except E α) (s : CacheStore),
      plainCall f s = (f (), s, 1) :=
  ⟨rfl, rfl, fun _ _ _ _ => rfl⟩
